import Mathlib

/-!
Verification of the OpenMP histogram "amount of control" benchmark
(`src/openMP/src/control/control.c`), shallowly embedded in Lean.

The C program generates a deterministic buffer of byte samples with a
32-bit LCG, reduces it into a 256-bin histogram with one of two
strategies (global atomic increments, optionally on cache-line padded
bins, or thread-local histograms merged under a critical section),
checks that the bins sum to N, and reports CSV records.

Embedding conventions:
* uint32 / uint64 arithmetic is `Nat` with explicit `% U32` / `% U64`.
* The histogram array `unsigned long long hist[256]` is a function
  `Nat → Nat`; only indices below 256 are ever touched because samples
  are bytes.
* The nondeterministic interleaving of a parallel reduction is an
  explicit parameter: for the atomic strategies, the global order in
  which the increments hit memory (any permutation of the buffer, since
  OpenMP atomics lose no update); for the local strategy, the list of
  per-thread sample lists in the order the threads enter the critical
  merge (any partition whose concatenation is a permutation of the
  buffer).
* The two floating-point constant expressions in the source,
  `(int)(BINS * 0.2)` and `(uint32_t)(0.8 * 4294967295.0)`, evaluate
  under IEEE-754 double arithmetic to the integers 51 and 3435973836;
  they are embedded as those integers.
-/

namespace HistControl

/-- Modulus of 32-bit unsigned arithmetic, 2^32. -/
def U32 : Nat := 4294967296

/-- Modulus of 64-bit unsigned arithmetic, 2^64. -/
def U64 : Nat := 18446744073709551616

/-- Model of `lcg_next` from control.c: `x * 1664525u + 1013904223u` in uint32
arithmetic. -/
def lcg_next (x : Nat) : Nat := (x * 1664525 + 1013904223) % U32

/-- The n-th iterate of `lcg_next` starting from `seed` (the value of the
C variable `x` after `n` executions of `x = lcg_next(x)`). -/
def lcgIter (seed : Nat) : Nat → Nat
  | 0 => seed
  | n + 1 => lcg_next (lcgIter seed n)

/-- Loop of `gen_uniform` from control.c, with current LCG state `x` and
`n` elements left to produce: each sample is `x & 0xFF` of the freshly
advanced state, i.e. `% 256`. -/
def gen_uniform_loop (x : Nat) : Nat → List Nat
  | 0 => []
  | n + 1 => (lcg_next x % 256) :: gen_uniform_loop (lcg_next x) n

/-- Model of `gen_uniform` from control.c: N uniform byte samples from the LCG
seeded with 123456789. -/
def gen_uniform (N : Nat) : List Nat := gen_uniform_loop 123456789 N

/-- Value of `(int)(BINS * 0.2)` from control.c with BINS = 256; the double
product is 51.2000...28, truncated to 51. -/
def hot_bins : Nat := 51

/-- Value of `(uint32_t)(0.8 * 4294967295.0)` from control.c: the double product
rounds to exactly 3435973836.0 and truncates to 3435973836. -/
def skew_threshold : Nat := 3435973836

/-- Body of the `gen_skewed` loop from control.c applied to the freshly
advanced LCG state `x`: below the threshold the sample is `x % hot_bins`
(hot range); otherwise it is the low byte of `x`, shifted up by
`hot_bins` when it would fall in the hot range. -/
def skew_sample (x : Nat) : Nat :=
  if x < skew_threshold then
    x % hot_bins
  else
    let v := x % 256
    if v < hot_bins then v + hot_bins else v

/-- Loop of `gen_skewed` from control.c, with current LCG state `x` and
`n` elements left to produce. -/
def gen_skewed_loop (x : Nat) : Nat → List Nat
  | 0 => []
  | n + 1 => skew_sample (lcg_next x) :: gen_skewed_loop (lcg_next x) n

/-- Model of `gen_skewed` from control.c: N skewed byte samples from the LCG
seeded with 987654321. -/
def gen_skewed (N : Nat) : List Nat := gen_skewed_loop 987654321 N

/-- The distribution argument of the benchmark. -/
inductive Dist where
  | uniform : Dist
  | skewed : Dist
deriving DecidableEq, Repr

/-- The workload generator dispatch (`gen_uniform` / `gen_skewed` as
selected by the `dist` argument in `main`). -/
def generate : Dist → Nat → List Nat
  | Dist.uniform, N => gen_uniform N
  | Dist.skewed, N => gen_skewed N

/-- One increment `hist[v] += 1ULL` from control.c, in uint64
arithmetic. -/
def bump (h : Nat → Nat) (v : Nat) : Nat → Nat :=
  Function.update h v ((h v + 1) % U64)

/-- Model of `hist_atomic` from control.c. The zero-initialised shared histogram
receives one atomic increment per sample; `order` is the global order in
which the increments take effect, a permutation of the buffer under any
thread count, schedule policy, chunk size, and affinity setting. -/
def hist_atomic (order : List Nat) : Nat → Nat :=
  order.foldl bump (fun _ => 0)

/-- Model of `padded_bin_t` from control.c. The `char pad[56]` filler carries no
logical content and is omitted from the model. -/
structure padded_bin_t where
  value : Nat
deriving DecidableEq, Repr

/-- One increment `hist_padded[v].value += 1ULL` from control.c. -/
def bump_padded (h : Nat → padded_bin_t) (v : Nat) : Nat → padded_bin_t :=
  Function.update h v ⟨((h v).value + 1) % U64⟩

/-- Model of `hist_atomic_padded` from control.c: identical to `hist_atomic` but
incrementing the `value` field of padded bins. -/
def hist_atomic_padded (order : List Nat) : Nat → padded_bin_t :=
  order.foldl bump_padded (fun _ => ⟨0⟩)

/-- The copy-back loop in `main` (`hist[b] = hist_padded[b].value`). -/
def copyOut (hp : Nat → padded_bin_t) : Nat → Nat := fun b => (hp b).value

/-- One thread's private `local_hist` in `hist_local` from control.c:
zero-initialised, then one non-atomic increment per owned sample. -/
def local_hist (part : List Nat) : Nat → Nat :=
  part.foldl bump (fun _ => 0)

/-- The critical-section merge loop in `hist_local` from control.c:
`hist[b] += local_hist[b]` for b in 0..255. -/
def mergeStep (h : Nat → Nat) (part : List Nat) : Nat → Nat :=
  fun b => if b < 256 then (h b + local_hist part b) % U64 else h b

/-- Model of `hist_local` from control.c. `parts` lists each thread's assigned
samples, ordered by the thread's entry into the critical merge; any
OpenMP schedule yields some such partition of the buffer. -/
def hist_local (parts : List (List Nat)) : Nat → Nat :=
  parts.foldl mergeStep (fun _ => 0)

/-- The 256 stored counts of a histogram, in bin order, as read by the
`check_correct` summation loop. -/
def histList (h : Nat → Nat) : List Nat := (List.range 256).map h

/-- Model of `check_correct` from control.c: sums the 256 bins into a uint64
`total` (wrapping at 2^64) and compares with `(unsigned long long)N`,
i.e. with N reduced modulo 2^64. -/
def check_correct (hist : Nat → Nat) (N : Int) : Bool :=
  (histList hist).foldl (fun t c => (t + c) % U64) 0
    == (N % (18446744073709551616 : Int)).toNat

/-- A bin store with two bins holding 2^63 each and zero elsewhere;
every count is a representable uint64 value. -/
def cexHist : Nat → Nat := fun b =>
  if b = 0 then 9223372036854775808
  else if b = 1 then 9223372036854775808
  else 0

/-- One CSV output record of `main` from control.c (a `printf` line);
the fields are those printed before the metric value.  The elapsed-time
value is wall-clock and not modelled. -/
structure OutRecord where
  strategy : String
  dist : String
  N : Int
  T : Int
  sched : String
  chunk : Int
  pad : Int
  affinity : Int
  metric : String
deriving DecidableEq, Repr

/-- The observable outcome of one run of `main` from control.c:
the process exit code, whether the `malloc` of the sample buffer was
reached, the CSV records printed, the correctness flag printed (none if
the run exited before the check), and the final 256-bin histogram. -/
structure MainResult where
  exitCode : Nat
  allocated : Bool
  records : List OutRecord
  correct : Option Nat
  hist : Nat → Nat

/-- The tail of `main` from control.c after a strategy has produced the
histogram: run `check_correct`, print the two CSV records, and return
`correct ? 0 : 3`. -/
def finishRun (strategy dist : String) (N T : Int) (sched : String)
    (chunk pad affinity : Int) (hist : Nat → Nat) : MainResult :=
  let correct : Nat := if check_correct hist N then 1 else 0
  { exitCode := if correct = 1 then 0 else 3
    allocated := true
    records :=
      [⟨strategy, dist, N, T, sched, chunk, pad, affinity, "time"⟩,
       ⟨strategy, dist, N, T, sched, chunk, pad, affinity, "correct"⟩]
    correct := some correct
    hist := hist }

/-- Model of `main` from control.c for an invocation with all eight arguments
supplied (argc ≥ 5; absent optional arguments correspond to passing the
defaults sched0 = "static", chunk0 = 0, pad = 0, affinity = 0, as in the
source).  Arguments are taken after `atoll`/`atoi` conversion.
`mallocOk` models whether the sample-buffer `malloc` succeeds.  The
reduction's interleaving is nondeterministic in the source; by the
permutation-independence lemmas proved below every interleaving yields
the same histogram, so the model instantiates the sequential one
(`order = data`, `parts = [data]`). -/
def mainModel (strategy dist sched0 : String) (N T chunk0 pad affinity : Int)
    (mallocOk : Bool) : MainResult :=
  if N ≤ 0 ∨ T ≤ 0 then
    { exitCode := 1, allocated := false, records := [], correct := none
      hist := fun _ => 0 }
  else
    let chunk : Int := if chunk0 < 0 then 0 else chunk0
    let sched : String :=
      if sched0 = "dynamic" then "dynamic"
      else if sched0 = "guided" then "guided"
      else "static"
    if mallocOk = false then
      { exitCode := 2, allocated := true, records := [], correct := none
        hist := fun _ => 0 }
    else if dist = "uniform" ∨ dist = "skewed" then
      let data : List Nat :=
        if dist = "uniform" then gen_uniform N.toNat else gen_skewed N.toNat
      if strategy = "atomic" then
        let hist : Nat → Nat :=
          if pad ≠ 0 then copyOut (hist_atomic_padded data) else hist_atomic data
        finishRun strategy dist N T sched chunk pad affinity hist
      else if strategy = "local" then
        finishRun strategy dist N T sched chunk 0 affinity (hist_local [data])
      else
        { exitCode := 1, allocated := true, records := [], correct := none
          hist := fun _ => 0 }
    else
      { exitCode := 1, allocated := true, records := [], correct := none
        hist := fun _ => 0 }

/-! ### Helper lemmas: one fold of `bump` counts occurrences -/

/-- Pointwise description of a single increment. -/
theorem bump_apply (h : Nat → Nat) (v b : Nat) :
    bump h v b = if b = v then (h v + 1) % U64 else h b := by
  simp [bump, Function.update_apply]

/-- Folding `bump` over a sample list adds, to each bin, the number of
occurrences of that bin's index, provided no uint64 counter wraps. -/
theorem foldl_bump_eq (l : List Nat) :
    ∀ h : Nat → Nat, (∀ b, h b + l.count b < U64) →
      ∀ b, l.foldl bump h b = h b + l.count b := by
  induction l with
  | nil => intro h _ b; simp
  | cons a t ih =>
    intro h hb b
    have ha' : h a + 1 < U64 := by
      have := hb a
      rw [List.count_cons_self] at this
      omega
    have hstep : ∀ b, bump h a b + t.count b < U64 := by
      intro b
      rw [bump_apply]
      by_cases hba : b = a
      · subst hba
        have := hb b
        rw [List.count_cons_self] at this
        rw [if_pos rfl, Nat.mod_eq_of_lt ha']
        omega
      · have := hb b
        rw [List.count_cons_of_ne hba] at this
        rw [if_neg hba]
        omega
    rw [List.foldl_cons, ih (bump h a) hstep b, bump_apply]
    by_cases hba : b = a
    · subst hba
      rw [List.count_cons_self, if_pos rfl, Nat.mod_eq_of_lt ha']
      omega
    · rw [List.count_cons_of_ne hba, if_neg hba]

/-- An un-wrapped atomic reduction stores each bin's exact occurrence
count. -/
theorem hist_atomic_count (order : List Nat) (hlen : order.length < U64)
    (b : Nat) : hist_atomic order b = order.count b := by
  have hc : ∀ b, (fun _ => (0 : Nat)) b + order.count b < U64 := fun b =>
    by simpa using lt_of_le_of_lt (List.count_le_length ..) hlen
  simpa [hist_atomic] using foldl_bump_eq order (fun _ => 0) hc b

/-- The copy-back of a padded store commutes with each increment: the
padded fold, read through `copyOut`, is the compact fold. -/
theorem copyOut_foldl (l : List Nat) :
    ∀ hp : Nat → padded_bin_t,
      copyOut (l.foldl bump_padded hp) = l.foldl bump (copyOut hp) := by
  induction l with
  | nil => intro hp; rfl
  | cons a t ih =>
    intro hp
    have hone : copyOut (bump_padded hp a) = bump (copyOut hp) a := by
      funext b
      by_cases hba : b = a
      · subst hba
        simp [copyOut, bump, bump_padded, Function.update_apply]
      · simp [copyOut, bump, bump_padded, Function.update_apply, hba]
    rw [List.foldl_cons, List.foldl_cons, ih, hone]

/-- A thread's private histogram stores exact per-bin counts of its
assigned samples (no wrap). -/
theorem local_hist_eq (part : List Nat) (hlt : ∀ b, part.count b < U64)
    (b : Nat) : local_hist part b = part.count b := by
  have := foldl_bump_eq part (fun _ => 0) (fun b => by simpa using hlt b) b
  simpa [local_hist] using this

/-- The merge fold never touches bins at or above 256. -/
theorem foldl_merge_high (parts : List (List Nat)) :
    ∀ h : Nat → Nat, ∀ b, ¬ b < 256 → parts.foldl mergeStep h b = h b := by
  induction parts with
  | nil => intro h b _; rfl
  | cons p ps ih =>
    intro h b hb
    rw [List.foldl_cons, ih (mergeStep h p) b hb]
    simp [mergeStep, hb]

/-- The merge fold adds, to each bin below 256, the total occurrence
count over all threads' samples, provided no uint64 counter wraps. -/
theorem foldl_merge_eq (parts : List (List Nat)) :
    ∀ h : Nat → Nat, (∀ b, h b + parts.flatten.count b < U64) →
      ∀ b, b < 256 → parts.foldl mergeStep h b = h b + parts.flatten.count b := by
  induction parts with
  | nil => intro h _ b _; simp
  | cons p ps ih =>
    intro h hb b hb256
    have hsplit : ∀ b, (p :: ps).flatten.count b = p.count b + ps.flatten.count b := by
      intro b; simp [List.count_append]
    have hploc : ∀ b, p.count b < U64 := by
      intro b; have := hb b; rw [hsplit b] at this; omega
    have hmerge : ∀ b, mergeStep h p b
        = if b < 256 then (h b + p.count b) % U64 else h b := by
      intro b
      simp [mergeStep, local_hist_eq p hploc]
    have hnew : ∀ b, mergeStep h p b + ps.flatten.count b < U64 := by
      intro b
      rw [hmerge b]
      have hall := hb b
      rw [hsplit b] at hall
      by_cases hlt : b < 256
      · simp only [if_pos hlt, Nat.mod_eq_of_lt (show h b + p.count b < U64 by omega)]
        omega
      · simp only [if_neg hlt]
        omega
    have hall := hb b
    rw [hsplit b] at hall
    rw [List.foldl_cons, ih (mergeStep h p) hnew b hb256, hmerge b]
    simp only [if_pos hb256, Nat.mod_eq_of_lt (show h b + p.count b < U64 by omega),
      hsplit b]
    omega

/-- An un-wrapped thread-local reduction stores each bin's exact
occurrence count over all threads' samples. -/
theorem hist_local_count (parts : List (List Nat))
    (hlen : parts.flatten.length < U64)
    (helem : ∀ v ∈ parts.flatten, v < 256) (b : Nat) :
    hist_local parts b = parts.flatten.count b := by
  by_cases hb : b < 256
  · have hc : ∀ b, (fun _ => (0 : Nat)) b + parts.flatten.count b < U64 := fun b =>
      by simpa using lt_of_le_of_lt (List.count_le_length ..) hlen
    simpa [hist_local] using foldl_merge_eq parts (fun _ => 0) hc b hb
  · rw [hist_local, foldl_merge_high parts _ b hb]
    have hzero : parts.flatten.count b = 0 := by
      rw [List.count_eq_zero]
      intro hmem
      exact hb (helem b hmem)
    omega

/-- Summing exact per-bin counts over the 256 bins recovers the buffer
length when every sample is a byte. -/
theorem sum_count_eq_length (data : List Nat) :
    (∀ v ∈ data, v < 256) →
      (∑ b ∈ Finset.range 256, data.count b) = data.length := by
  induction data with
  | nil => intro _; simp
  | cons a t ih =>
    intro helem
    have ha : a ∈ Finset.range 256 := by
      rw [Finset.mem_range]
      exact helem a (by simp)
    have hcnt : ∀ b, (a :: t).count b = t.count b + if b = a then 1 else 0 := by
      intro b
      by_cases hba : b = a
      · subst hba; rw [List.count_cons_self, if_pos rfl]
      · rw [List.count_cons_of_ne hba, if_neg hba]
        omega
    calc (∑ b ∈ Finset.range 256, (a :: t).count b)
        = ∑ b ∈ Finset.range 256, (t.count b + if b = a then 1 else 0) :=
          Finset.sum_congr rfl (fun b _ => hcnt b)
      _ = (∑ b ∈ Finset.range 256, t.count b)
            + ∑ b ∈ Finset.range 256, (if b = a then 1 else 0) :=
          Finset.sum_add_distrib
      _ = t.length + 1 := by
          rw [ih (fun v hv => helem v (by simp [hv])),
            Finset.sum_ite_eq' (Finset.range 256) a (fun _ => 1), if_pos ha]
      _ = (a :: t).length := by simp

/-! ### Helper lemmas: the verifier's wrapping sum -/

/-- The wrapping accumulation of `check_correct` computes the sum of the
list modulo 2^64. -/
theorem foldl_mod_sum (l : List Nat) : ∀ t : Nat, t < U64 →
    l.foldl (fun t c => (t + c) % U64) t = (t + l.sum) % U64 := by
  induction l with
  | nil => intro t ht; simp [Nat.mod_eq_of_lt ht]
  | cons c cs ih =>
    intro t ht
    rw [List.foldl_cons, ih ((t + c) % U64) (Nat.mod_lt _ (by norm_num [U64])),
      List.sum_cons, Nat.mod_add_mod, ← Nat.add_assoc]

/-- The list of stored counts sums to the `Finset` sum over the bins. -/
theorem histSum_list (f : Nat → Nat) : ∀ n : Nat,
    ((List.range n).map f).sum = ∑ b ∈ Finset.range n, f b := by
  intro n
  induction n with
  | zero => simp
  | succ k ih =>
    rw [List.range_succ, List.map_append, List.sum_append, Finset.sum_range_succ, ih]
    simp

/-- Lemma: `check_correct` succeeds exactly when the bins sum to `N` modulo
2^64 (after the C cast of `N` to `unsigned long long`). -/
theorem check_correct_iff (hist : Nat → Nat) (N : Int) :
    check_correct hist N = true ↔
      (∑ b ∈ Finset.range 256, hist b) % U64
        = (N % (18446744073709551616 : Int)).toNat := by
  rw [check_correct, beq_iff_eq, foldl_mod_sum _ 0 (by norm_num [U64]),
    Nat.zero_add, histList, histSum_list]

/-- Lemma: `check_correct` succeeds on any histogram holding exact per-bin
counts of a byte buffer of length `N`, for `N` in `long long` range. -/
theorem check_correct_of_counts (hist : Nat → Nat) (data : List Nat) (N : Int)
    (hN : 0 ≤ N) (hbound : N < 18446744073709551616)
    (hlen : data.length = N.toNat)
    (hcount : ∀ b, hist b = data.count b)
    (helem : ∀ v ∈ data, v < 256) :
    check_correct hist N = true := by
  rw [check_correct_iff]
  have h1 : (∑ b ∈ Finset.range 256, hist b) = data.length :=
    (Finset.sum_congr rfl (fun b _ => hcount b)).trans (sum_count_eq_length data helem)
  have h2 : N % (18446744073709551616 : Int) = N := Int.emod_eq_of_lt hN hbound
  have h3 : N.toNat < U64 := by
    have : N < (18446744073709551616 : Int) := hbound
    rw [U64]
    omega
  rw [h1, hlen, h2, Nat.mod_eq_of_lt h3]

/-! ### Helper lemmas: the generators -/

/-- Shifting the LCG start by one step shifts the iterate index. -/
theorem lcgIter_shift (x : Nat) : ∀ n, lcgIter (lcg_next x) n = lcgIter x (n + 1) := by
  intro n
  induction n with
  | zero => simp [lcgIter]
  | succ k ih =>
    rw [lcgIter, ih]
    conv_rhs => rw [lcgIter]

/-- Closed form of the uniform generator loop: the i-th element is the
(i+1)-th LCG iterate reduced to its low byte. -/
theorem gen_uniform_loop_get (n : Nat) :
    ∀ x i, i < n → (gen_uniform_loop x n)[i]? = some (lcgIter x (i + 1) % 256) := by
  induction n with
  | zero => intro x i h; exact absurd h (Nat.not_lt_zero i)
  | succ k ih =>
    intro x i h
    cases i with
    | zero =>
      rw [gen_uniform_loop, List.getElem?_cons_zero, lcgIter, lcgIter]
    | succ j =>
      have hj : j < k := Nat.lt_of_succ_lt_succ h
      rw [gen_uniform_loop, List.getElem?_cons_succ, ih (lcg_next x) j hj, lcgIter_shift]

/-- Closed form of the skewed generator loop: the i-th element is
`skew_sample` of the (i+1)-th LCG iterate. -/
theorem gen_skewed_loop_get (n : Nat) :
    ∀ x i, i < n → (gen_skewed_loop x n)[i]? = some (skew_sample (lcgIter x (i + 1))) := by
  induction n with
  | zero => intro x i h; exact absurd h (Nat.not_lt_zero i)
  | succ k ih =>
    intro x i h
    cases i with
    | zero =>
      rw [gen_skewed_loop, List.getElem?_cons_zero, lcgIter, lcgIter]
    | succ j =>
      have hj : j < k := Nat.lt_of_succ_lt_succ h
      rw [gen_skewed_loop, List.getElem?_cons_succ, ih (lcg_next x) j hj, lcgIter_shift]

/-- The uniform generator loop produces `n` samples. -/
theorem gen_uniform_loop_length (n : Nat) :
    ∀ x, (gen_uniform_loop x n).length = n := by
  induction n with
  | zero => intro x; rfl
  | succ k ih => intro x; simp [gen_uniform_loop, ih]

/-- The skewed generator loop produces `n` samples. -/
theorem gen_skewed_loop_length (n : Nat) :
    ∀ x, (gen_skewed_loop x n).length = n := by
  induction n with
  | zero => intro x; rfl
  | succ k ih => intro x; simp [gen_skewed_loop, ih]

/-- Uniform samples are bytes. -/
theorem gen_uniform_loop_lt (n : Nat) :
    ∀ x, ∀ v ∈ gen_uniform_loop x n, v < 256 := by
  induction n with
  | zero => intro x v hv; simp [gen_uniform_loop] at hv
  | succ k ih =>
    intro x v hv
    rw [gen_uniform_loop] at hv
    rcases List.mem_cons.mp hv with h | h
    · rw [h]
      omega
    · exact ih (lcg_next x) v h

/-- Every skewed sample is a byte. -/
theorem skew_sample_lt (x : Nat) : skew_sample x < 256 := by
  by_cases h : x < skew_threshold
  · have h51 : x % 51 < 51 := Nat.mod_lt _ (by norm_num)
    simp only [skew_sample, hot_bins, if_pos h]
    omega
  · have h256 : x % 256 < 256 := Nat.mod_lt _ (by norm_num)
    simp only [skew_sample, hot_bins, if_neg h]
    by_cases h2 : x % 256 < 51 <;> simp only [if_pos, if_neg, h2, ite_true, ite_false] <;> omega

/-- Skewed samples are bytes (list form). -/
theorem gen_skewed_loop_lt (n : Nat) :
    ∀ x, ∀ v ∈ gen_skewed_loop x n, v < 256 := by
  induction n with
  | zero => intro x v hv; simp [gen_skewed_loop] at hv
  | succ k ih =>
    intro x v hv
    rw [gen_skewed_loop] at hv
    rcases List.mem_cons.mp hv with h | h
    · rw [h]
      exact skew_sample_lt _
    · exact ih (lcg_next x) v h

/-- Reading a padded reduction back through the copy loop gives exactly
the compact reduction. -/
theorem copyOut_hist_atomic_padded (l : List Nat) :
    copyOut (hist_atomic_padded l) = hist_atomic l := by
  rw [hist_atomic_padded, hist_atomic, copyOut_foldl]
  rfl

/-- The tail of `main` produces exit code 0 and two records echoing its
configuration whenever the correctness check passes. -/
theorem finishRun_props (strategy dist : String) (N T : Int) (sched : String)
    (chunk pad affinity : Int) (hist : Nat → Nat)
    (hok : check_correct hist N = true) :
    (finishRun strategy dist N T sched chunk pad affinity hist).exitCode = 0
  ∧ (finishRun strategy dist N T sched chunk pad affinity hist).records.length = 2
  ∧ ∀ r ∈ (finishRun strategy dist N T sched chunk pad affinity hist).records,
      r.sched = sched ∧ r.chunk = chunk := by
  refine ⟨by simp [finishRun, hok], by simp [finishRun], ?_⟩
  intro r hr
  simp only [finishRun, List.mem_cons, List.not_mem_nil, or_false] at hr
  rcases hr with h | h <;> rw [h]
  · exact ⟨rfl, rfl⟩
  · exact ⟨rfl, rfl⟩

/-! ### Claim theorems -/

/-- C1: for every sample buffer of positive length (each element a byte,
length representable in uint64) and either strategy — atomic with
padding off, atomic with padding on, or local — every final bin holds
exactly the number of buffer elements equal to its index, under every
admissible reduction interleaving, and the 256 bins sum to the buffer
length. -/
theorem C1_reduction_exact (data : List Nat) (_hpos : 0 < data.length)
    (hlen : data.length < U64) (helem : ∀ v ∈ data, v < 256) :
    (∀ order, order.Perm data →
        (∀ b, hist_atomic order b = data.count b)
      ∧ (∑ b ∈ Finset.range 256, hist_atomic order b) = data.length)
  ∧ (∀ order, order.Perm data →
        (∀ b, copyOut (hist_atomic_padded order) b = data.count b)
      ∧ (∑ b ∈ Finset.range 256, copyOut (hist_atomic_padded order) b) = data.length)
  ∧ (∀ parts : List (List Nat), parts.flatten.Perm data →
        (∀ b, hist_local parts b = data.count b)
      ∧ (∑ b ∈ Finset.range 256, hist_local parts b) = data.length) := by
  have hsum : (∑ b ∈ Finset.range 256, data.count b) = data.length :=
    sum_count_eq_length data helem
  have hatomic : ∀ order, order.Perm data → ∀ b, hist_atomic order b = data.count b := by
    intro order hperm b
    rw [hist_atomic_count order (by rw [hperm.length_eq]; exact hlen) b, hperm.count_eq]
  refine ⟨?_, ?_, ?_⟩
  · intro order hperm
    refine ⟨hatomic order hperm, ?_⟩
    rw [Finset.sum_congr rfl (fun b _ => hatomic order hperm b), hsum]
  · intro order hperm
    have h1 : ∀ b, copyOut (hist_atomic_padded order) b = data.count b := by
      intro b
      rw [copyOut_hist_atomic_padded]
      exact hatomic order hperm b
    refine ⟨h1, ?_⟩
    rw [Finset.sum_congr rfl (fun b _ => h1 b), hsum]
  · intro parts hperm
    have h1 : ∀ b, hist_local parts b = data.count b := by
      intro b
      rw [hist_local_count parts (by rw [hperm.length_eq]; exact hlen)
        (fun v hv => helem v (hperm.mem_iff.mp hv)) b, hperm.count_eq]
    refine ⟨h1, ?_⟩
    rw [Finset.sum_congr rfl (fun b _ => h1 b), hsum]

/-- Witness for C1 on the buffer [3, 3, 7]: the atomic strategy under a
swapped interleaving, the padded strategy, and the local strategy with a
two-thread partition all store the exact counts, and the bins sum to 3. -/
theorem C1_reduction_exact_witness :
    hist_atomic [7, 3, 3] 3 = 2
  ∧ copyOut (hist_atomic_padded [3, 3, 7]) 7 = 1
  ∧ hist_local [[3, 3], [7]] 3 = 2
  ∧ (∑ b ∈ Finset.range 256, hist_local [[3, 3], [7]] b) = 3 := by
  have h := C1_reduction_exact [3, 3, 7] (by decide) (by decide) (by decide)
  have hperm : ([7, 3, 3] : List Nat).Perm [3, 3, 7] := by
    decide
  refine ⟨?_, ?_, ?_, ?_⟩
  · rw [(h.1 [7, 3, 3] hperm).1 3]; decide
  · rw [(h.2.1 [3, 3, 7] (List.Perm.refl _)).1 7]; decide
  · rw [(h.2.2 [[3, 3], [7]] (List.Perm.refl _)).1 3]; decide
  · rw [(h.2.2 [[3, 3], [7]] (List.Perm.refl _)).2]; decide

/-- C2: the i-th skewed sample is obtained from the (i+1)-th iterate x of
the LCG seeded with 987654321 as follows: the threshold is the 32-bit
truncation of 0.8 × 4294967295.0 (exactly 8/10 of 4294967295); below it
the sample is x mod 51, which lies in [0,50]; otherwise the sample is
the low byte of x shifted up by 51 when below 51, which lies in
[51,255]. -/
theorem C2_skewed_sample (N i : Nat) (h : i < N) :
    (gen_skewed N)[i]? = some (skew_sample (lcgIter 987654321 (i + 1)))
  ∧ skew_threshold * 10 = 4294967295 * 8
  ∧ (∀ x, x < skew_threshold → skew_sample x = x % 51 ∧ skew_sample x ≤ 50)
  ∧ (∀ x, skew_threshold ≤ x →
        skew_sample x = (if x % 256 < 51 then x % 256 + 51 else x % 256)
      ∧ 51 ≤ skew_sample x ∧ skew_sample x ≤ 255) := by
  refine ⟨gen_skewed_loop_get N 987654321 i h, by decide, ?_, ?_⟩
  · intro x hx
    have h51 : x % 51 < 51 := Nat.mod_lt _ (by norm_num)
    constructor
    · simp only [skew_sample, hot_bins, if_pos hx]
    · simp only [skew_sample, hot_bins, if_pos hx]
      omega
  · intro x hx
    have hnx : ¬ x < skew_threshold := not_lt.mpr hx
    have h256 : x % 256 < 256 := Nat.mod_lt _ (by norm_num)
    refine ⟨by simp only [skew_sample, hot_bins, if_neg hnx], ?_, ?_⟩
    · simp only [skew_sample, hot_bins, if_neg hnx]
      split <;> omega
    · simp only [skew_sample, hot_bins, if_neg hnx]
      split <;> omega

/-- Witness for C2 at N = 3, i = 1: the second skewed sample is
`skew_sample` of the second LCG iterate and evaluates to 62. -/
theorem C2_skewed_sample_witness :
    (gen_skewed 3)[1]? = some (skew_sample (lcgIter 987654321 2))
  ∧ (gen_skewed 3)[1]? = some 62 :=
  ⟨(C2_skewed_sample 3 1 (by decide)).1, by decide⟩

/-- C3: the i-th uniform sample is the low 8 bits of the (i+1)-th
iterate of the LCG x ↦ (x × 1664525 + 1013904223) mod 2^32 seeded with
123456789. -/
theorem C3_uniform_sample (N i : Nat) (h : i < N) :
    (gen_uniform N)[i]? = some (lcgIter 123456789 (i + 1) % 256)
  ∧ (∀ x, lcg_next x = (x * 1664525 + 1013904223) % 4294967296)
  ∧ lcgIter 123456789 (i + 1) = lcg_next (lcgIter 123456789 i) :=
  ⟨gen_uniform_loop_get N 123456789 i h, fun _ => rfl, rfl⟩

/-- Witness for C3 at N = 3, i = 1: the second uniform sample is the low
byte of the second LCG iterate and evaluates to 15. -/
theorem C3_uniform_sample_witness :
    (gen_uniform 3)[1]? = some (lcgIter 123456789 2 % 256)
  ∧ (gen_uniform 3)[1]? = some 15 :=
  ⟨(C3_uniform_sample 3 1 (by decide)).1, by decide⟩

/-- C6: on the same input buffer, a padded-layout atomic run (under any
interleaving) stores, bin for bin, exactly the counts of a compact
atomic run (under any interleaving), as read back by the copy loop. -/
theorem C6_padded_matches_compact (data o1 o2 : List Nat)
    (h1 : o1.Perm data) (h2 : o2.Perm data) (hlen : data.length < U64) :
    ∀ b, copyOut (hist_atomic_padded o1) b = hist_atomic o2 b := by
  intro b
  rw [copyOut_hist_atomic_padded,
    hist_atomic_count o1 (by rw [h1.length_eq]; exact hlen) b,
    hist_atomic_count o2 (by rw [h2.length_eq]; exact hlen) b,
    h1.count_eq, h2.count_eq]

/-- Witness for C6 on the buffer [1, 2]: a padded run with swapped
interleaving agrees with a compact sequential run at bin 1, both
holding count 1. -/
theorem C6_padded_matches_compact_witness :
    copyOut (hist_atomic_padded [2, 1]) 1 = hist_atomic [1, 2] 1
  ∧ hist_atomic [1, 2] 1 = 1 :=
  ⟨C6_padded_matches_compact [1, 2] [2, 1] [1, 2] (by decide)
    (List.Perm.refl _) (by decide) 1, by decide⟩

/-- C9: the workload generator is a deterministic function of the
distribution and N alone; two invocations yield identical buffers. -/
theorem C9_generator_deterministic (d : Dist) (N : Nat) (b1 b2 : List Nat)
    (h1 : b1 = generate d N) (h2 : b2 = generate d N) : b1 = b2 :=
  h1.trans h2.symm

/-- Witness for C9: two invocations of the uniform generator at N = 4
agree, and the common buffer is [112, 15, 34, 25]. -/
theorem C9_generator_deterministic_witness :
    generate Dist.uniform 4 = generate Dist.uniform 4
  ∧ generate Dist.uniform 4 = [112, 15, 34, 25] :=
  ⟨C9_generator_deterministic Dist.uniform 4 _ _ rfl rfl, by decide⟩

set_option maxRecDepth 4000 in
/-- C4 counterexample: on the bin store with bins 0 and 1 each holding
2^63 (both representable uint64 counts) and N = 0, `check_correct`
returns true although the true sum of the counts is 2^64 ≠ 0: the
verifier's uint64 total wraps. -/
theorem C4_counterexample :
    check_correct cexHist 0 = true ∧ (histList cexHist).sum ≠ 0 := by
  constructor
  · decide
  · decide

/-- C4 (amended): the verifier returns true iff the sum of the 256
counts equals `(unsigned long long)N` modulo 2^64; it inspects nothing
else and modifies nothing (it is a pure function of the 256 counts and
N). -/
theorem C4_check_correct_mod (hist : Nat → Nat) (N : Int) :
    check_correct hist N = true ↔
      (histList hist).sum % U64 = (N % (18446744073709551616 : Int)).toNat := by
  rw [check_correct_iff, histList, histSum_list]

/-- C8: an invocation with N ≤ 0 or T ≤ 0 exits with code 1 before the
sample buffer is allocated, emits no records, and never computes a
correctness flag. -/
theorem C8_nonpositive_rejected (strategy dist sched0 : String)
    (N T chunk0 pad affinity : Int) (m : Bool) (h : N ≤ 0 ∨ T ≤ 0) :
    mainModel strategy dist sched0 N T chunk0 pad affinity m
      = ⟨1, false, [], none, fun _ => 0⟩ := by
  simp [mainModel, h]

/-- Witness for C8 at N = 0, T = 4 (atomic, uniform, static): exit 1,
no allocation, no records. -/
theorem C8_nonpositive_rejected_witness :
    mainModel "atomic" "uniform" "static" 0 4 0 0 0 true
      = ⟨1, false, [], none, fun _ => 0⟩ :=
  C8_nonpositive_rejected "atomic" "uniform" "static" 0 4 0 0 0 true
    (Or.inl (by norm_num))

/-- C5 counterexample: the invocation (atomic, dist "nonsense", N = 5,
T = 2) is a configuration error that exits with code 1, yet the sample
buffer allocation has already been performed — contradicting "exits
before any allocation". -/
theorem C5_counterexample :
    (mainModel "atomic" "nonsense" "static" 5 2 0 0 0 true).exitCode = 1
  ∧ (mainModel "atomic" "nonsense" "static" 5 2 0 0 0 true).allocated = true := by
  constructor
  · rfl
  · rfl

/-- C5 (amended): every configuration error — unknown strategy string,
unknown distribution string, or non-positive N or T — exits with code
1; the exit happens before the sample-buffer allocation exactly when N
or T is non-positive, while an unknown strategy or distribution is only
detected after the buffer has been allocated. -/
theorem C5_config_error_exit (strategy dist sched0 : String)
    (N T chunk0 pad affinity : Int)
    (herr : N ≤ 0 ∨ T ≤ 0 ∨ ¬ (dist = "uniform" ∨ dist = "skewed")
          ∨ ¬ (strategy = "atomic" ∨ strategy = "local")) :
    (mainModel strategy dist sched0 N T chunk0 pad affinity true).exitCode = 1
  ∧ ((mainModel strategy dist sched0 N T chunk0 pad affinity true).allocated = false
      ↔ (N ≤ 0 ∨ T ≤ 0)) := by
  by_cases hnt : N ≤ 0 ∨ T ≤ 0
  · simp [mainModel, hnt]
  · have hds : ¬ (dist = "uniform" ∨ dist = "skewed")
        ∨ ¬ (strategy = "atomic" ∨ strategy = "local") := by tauto
    by_cases hd : dist = "uniform" ∨ dist = "skewed"
    · have hs : ¬ (strategy = "atomic" ∨ strategy = "local") := by tauto
      have hsa : ¬ strategy = "atomic" := fun hc => hs (Or.inl hc)
      have hsl : ¬ strategy = "local" := fun hc => hs (Or.inr hc)
      simp [mainModel, hnt, hd, hsa, hsl]
    · simp [mainModel, hnt, hd]

/-- Witness for C5 (amended) at the counterexample input: exit code 1
with the allocation already performed, since N = 5 > 0 and T = 2 > 0. -/
theorem C5_config_error_exit_witness :
    (mainModel "atomic" "nonsense" "static" 5 2 0 0 0 true).exitCode = 1
  ∧ ((mainModel "atomic" "nonsense" "static" 5 2 0 0 0 true).allocated = false
      ↔ ((5 : Int) ≤ 0 ∨ (2 : Int) ≤ 0)) :=
  C5_config_error_exit "atomic" "nonsense" "static" 5 2 0 0 0
    (Or.inr (Or.inr (Or.inl (by decide))))

/-- C7: with strategy = local, the padding argument has no effect on the
run's outcome — histogram, exit code, records — and both records report
pad = 0 regardless of the value passed. -/
theorem C7_local_pad_ignored (dist sched0 : String)
    (N T chunk0 pad1 pad2 affinity : Int) (m : Bool) :
    mainModel "local" dist sched0 N T chunk0 pad1 affinity m
      = mainModel "local" dist sched0 N T chunk0 pad2 affinity m
  ∧ ∀ r ∈ (mainModel "local" dist sched0 N T chunk0 pad1 affinity m).records,
      r.pad = 0 := by
  have hsa : ¬ (("local" : String) = "atomic") := by decide
  constructor
  · by_cases hnt : N ≤ 0 ∨ T ≤ 0
    · simp [mainModel, hnt]
    · by_cases hm : m = false
      · simp [mainModel, hnt, hm]
      · by_cases hd : dist = "uniform" ∨ dist = "skewed"
        · simp [mainModel, hnt, hm, hd, hsa]
        · simp [mainModel, hnt, hm, hd]
  · intro r hr
    by_cases hnt : N ≤ 0 ∨ T ≤ 0
    · simp [mainModel, hnt] at hr
    · by_cases hm : m = false
      · simp [mainModel, hnt, hm] at hr
      · by_cases hd : dist = "uniform" ∨ dist = "skewed"
        · simp [mainModel, hnt, hm, hd, hsa, finishRun] at hr
          rcases hr with h | h <;> rw [h]
        · simp [mainModel, hnt, hm, hd] at hr

/-- All three strategy variants of a run pass the correctness check on
a byte buffer whose length is `N` (for `N` in `long long` range). -/
theorem strategies_check (data : List Nat) (N : Int) (hN : 0 ≤ N)
    (hb : N < 18446744073709551616) (hlen : data.length = N.toNat)
    (hmem : ∀ v ∈ data, v < 256) :
    check_correct (hist_atomic data) N = true
  ∧ check_correct (copyOut (hist_atomic_padded data)) N = true
  ∧ check_correct (hist_local [data]) N = true := by
  have hU : data.length < U64 := by
    rw [hlen, U64]
    omega
  have hcnt : ∀ b, hist_atomic data b = data.count b :=
    fun b => hist_atomic_count data hU b
  have hfl : ([data] : List (List Nat)).flatten = data := by simp
  have hcntl : ∀ b, hist_local [data] b = data.count b := by
    intro b
    rw [hist_local_count [data] (by rw [hfl]; exact hU) (by rw [hfl]; exact hmem) b, hfl]
  refine ⟨check_correct_of_counts _ data N hN hb hlen hcnt hmem, ?_, ?_⟩
  · refine check_correct_of_counts _ data N hN hb hlen ?_ hmem
    intro b
    rw [copyOut_hist_atomic_padded]
    exact hcnt b
  · exact check_correct_of_counts _ data N hN hb hlen hcntl hmem

/-- C10: the schedule and chunk arguments are never rejected: for any
schedule string whatsoever and any chunk value whatsoever (given
otherwise-valid arguments) the run proceeds to completion with exit
code 0 and emits its two records; the records report the normalized
schedule — the string itself for "dynamic" and "guided", "static" for
every other string — and the clamped chunk — 0 for every negative
value, the value itself otherwise.  In particular an unrecognized
schedule string is silently normalized to "static" and a negative
chunk is silently clamped to 0, and neither causes exit code 1. -/
theorem C10_sched_chunk_lenient (strategy dist sched0 : String)
    (N T chunk0 pad affinity : Int)
    (hstrat : strategy = "atomic" ∨ strategy = "local")
    (hdist : dist = "uniform" ∨ dist = "skewed")
    (hN : 0 < N) (hNb : N < 9223372036854775808) (hT : 0 < T) :
    (mainModel strategy dist sched0 N T chunk0 pad affinity true).exitCode = 0
  ∧ (mainModel strategy dist sched0 N T chunk0 pad affinity true).records.length = 2
  ∧ ∀ r ∈ (mainModel strategy dist sched0 N T chunk0 pad affinity true).records,
      r.sched = (if sched0 = "dynamic" then "dynamic"
                 else if sched0 = "guided" then "guided" else "static")
    ∧ r.chunk = (if chunk0 < 0 then 0 else chunk0) := by
  have hnt : ¬ (N ≤ 0 ∨ T ≤ 0) := by omega
  have hsa : ¬ (("local" : String) = "atomic") := by decide
  rcases hdist with hd | hd <;> subst hd
  all_goals
    first
    | (have hchk := strategies_check (gen_uniform N.toNat) N hN.le (by omega)
          (gen_uniform_loop_length N.toNat 123456789)
          (gen_uniform_loop_lt N.toNat 123456789)
       rcases hstrat with hs | hs <;> subst hs
       · by_cases hp : pad ≠ 0
         · have hres : mainModel "atomic" "uniform" sched0 N T chunk0 pad affinity true
               = finishRun "atomic" "uniform" N T
                   (if sched0 = "dynamic" then "dynamic"
                    else if sched0 = "guided" then "guided" else "static")
                   (if chunk0 < 0 then 0 else chunk0) pad affinity
                   (copyOut (hist_atomic_padded (gen_uniform N.toNat))) := by
             simp [mainModel, hnt, hp]
           rw [hres]
           exact finishRun_props _ _ _ _ _ _ _ _ _ hchk.2.1
         · have hres : mainModel "atomic" "uniform" sched0 N T chunk0 pad affinity true
               = finishRun "atomic" "uniform" N T
                   (if sched0 = "dynamic" then "dynamic"
                    else if sched0 = "guided" then "guided" else "static")
                   (if chunk0 < 0 then 0 else chunk0) pad affinity
                   (hist_atomic (gen_uniform N.toNat)) := by
             simp [mainModel, hnt, hp]
           rw [hres]
           exact finishRun_props _ _ _ _ _ _ _ _ _ hchk.1
       · have hres : mainModel "local" "uniform" sched0 N T chunk0 pad affinity true
             = finishRun "local" "uniform" N T
                 (if sched0 = "dynamic" then "dynamic"
                  else if sched0 = "guided" then "guided" else "static")
                 (if chunk0 < 0 then 0 else chunk0) 0 affinity
                 (hist_local [gen_uniform N.toNat]) := by
           simp [mainModel, hnt, hsa]
         rw [hres]
         exact finishRun_props _ _ _ _ _ _ _ _ _ hchk.2.2)
    | (have hchk := strategies_check (gen_skewed N.toNat) N hN.le (by omega)
          (gen_skewed_loop_length N.toNat 987654321)
          (gen_skewed_loop_lt N.toNat 987654321)
       rcases hstrat with hs | hs <;> subst hs
       · by_cases hp : pad ≠ 0
         · have hres : mainModel "atomic" "skewed" sched0 N T chunk0 pad affinity true
               = finishRun "atomic" "skewed" N T
                   (if sched0 = "dynamic" then "dynamic"
                    else if sched0 = "guided" then "guided" else "static")
                   (if chunk0 < 0 then 0 else chunk0) pad affinity
                   (copyOut (hist_atomic_padded (gen_skewed N.toNat))) := by
             simp [mainModel, hnt, hp]
           rw [hres]
           exact finishRun_props _ _ _ _ _ _ _ _ _ hchk.2.1
         · have hres : mainModel "atomic" "skewed" sched0 N T chunk0 pad affinity true
               = finishRun "atomic" "skewed" N T
                   (if sched0 = "dynamic" then "dynamic"
                    else if sched0 = "guided" then "guided" else "static")
                   (if chunk0 < 0 then 0 else chunk0) pad affinity
                   (hist_atomic (gen_skewed N.toNat)) := by
             simp [mainModel, hnt, hp]
           rw [hres]
           exact finishRun_props _ _ _ _ _ _ _ _ _ hchk.1
       · have hres : mainModel "local" "skewed" sched0 N T chunk0 pad affinity true
             = finishRun "local" "skewed" N T
                 (if sched0 = "dynamic" then "dynamic"
                  else if sched0 = "guided" then "guided" else "static")
                 (if chunk0 < 0 then 0 else chunk0) 0 affinity
                 (hist_local [gen_skewed N.toNat]) := by
           simp [mainModel, hnt, hsa]
         rw [hres]
         exact finishRun_props _ _ _ _ _ _ _ _ _ hchk.2.2)

/-- Witness for C10: (atomic, uniform, schedule "weird", N = 5, T = 2,
chunk = −3) completes with exit code 0 and two records reporting
sched = static and chunk = 0. -/
theorem C10_sched_chunk_lenient_witness :
    (mainModel "atomic" "uniform" "weird" 5 2 (-3) 0 0 true).exitCode = 0
  ∧ (mainModel "atomic" "uniform" "weird" 5 2 (-3) 0 0 true).records.length = 2
  ∧ ∀ r ∈ (mainModel "atomic" "uniform" "weird" 5 2 (-3) 0 0 true).records,
      r.sched = "static" ∧ r.chunk = 0 := by
  have h := C10_sched_chunk_lenient "atomic" "uniform" "weird" 5 2 (-3) 0 0
    (Or.inl rfl) (Or.inl rfl) (by norm_num) (by norm_num) (by norm_num)
  simpa using h
